import Mathlib

/-!
Shallow embedding of the MedVis3D mesh slicer (src/js/main.js: `_sliceGeometry`,
`_createGeometryFromTriangles`, `_addCapToGeometry`, `_sortPointsAroundCenter`),
over exact rational arithmetic.  Vectors mirror `THREE.Vector3`, planes mirror
`THREE.Plane`; the plane classifier embeds the three.js library method
`Plane.distanceToPoint`, which the slicer calls for every vertex.
-/

namespace MedVis

/-- A 3D point/vector with rational coordinates, mirroring `THREE.Vector3`
restricted to the operations the slicer uses. -/
structure Vec3 where
  x : ℚ
  y : ℚ
  z : ℚ
deriving DecidableEq

/-- Componentwise sum, `Vector3.add`. -/
def Vec3.add (a b : Vec3) : Vec3 := ⟨a.x + b.x, a.y + b.y, a.z + b.z⟩

/-- Componentwise difference, `Vector3.sub` / `subVectors`. -/
def Vec3.sub (a b : Vec3) : Vec3 := ⟨a.x - b.x, a.y - b.y, a.z - b.z⟩

/-- Dot product, `Vector3.dot`. -/
def Vec3.dot (a b : Vec3) : ℚ := a.x * b.x + a.y * b.y + a.z * b.z

/-- Cross product, `Vector3.cross` / `crossVectors`. -/
def Vec3.cross (a b : Vec3) : Vec3 :=
  ⟨a.y * b.z - a.z * b.y, a.z * b.x - a.x * b.z, a.x * b.y - a.y * b.x⟩

/-- Componentwise negation, `Vector3.negate`. -/
def Vec3.negate (a : Vec3) : Vec3 := ⟨-a.x, -a.y, -a.z⟩

/-- Division by a scalar, `Vector3.divideScalar`. -/
def Vec3.divideScalar (a : Vec3) (s : ℚ) : Vec3 := ⟨a.x / s, a.y / s, a.z / s⟩

/-- Linear interpolation, `Vector3.lerpVectors(a, b, t) = a + (b - a) * t`. -/
def Vec3.lerpVectors (a b : Vec3) (t : ℚ) : Vec3 :=
  ⟨a.x + (b.x - a.x) * t, a.y + (b.y - a.y) * t, a.z + (b.z - a.z) * t⟩

/-- Squared Euclidean distance, `Vector3.distanceToSquared`.  The source
compares `distanceTo` (a square root) against positive thresholds; we embed
each such comparison as the equivalent comparison of squares. -/
def Vec3.distanceToSquared (a b : Vec3) : ℚ :=
  (a.x - b.x) ^ 2 + (a.y - b.y) ^ 2 + (a.z - b.z) ^ 2

/-- Squared length, `Vector3.lengthSq`. -/
def Vec3.lengthSq (a : Vec3) : ℚ := a.x ^ 2 + a.y ^ 2 + a.z ^ 2

/-- A plane as stored by `THREE.Plane`: a normal vector and the scalar
`constant` field.  The slicer receives such a plane (built in `main.js` by
`setFromNormalAndCoplanarPoint`, which sets `constant = -point.dot(normal)`). -/
structure Plane where
  normal : Vec3
  constant : ℚ
deriving DecidableEq

/-- The vertex classifier the slicer calls: the three.js library method
`Plane.distanceToPoint(p) = normal.dot(p) + constant` (main.js line 2757,
`vertexSides[i] = plane.distanceToPoint(v)`). -/
def Plane.distanceToPoint (pl : Plane) (p : Vec3) : ℚ :=
  pl.normal.dot p + pl.constant

/-- Modelled from the spec: the classifier formula as the spec words it,
`dot(normal, point) - planeConstant` (spec section 4.1).  Declared only to be
compared against the classifier the code actually calls. -/
def specDistanceToPoint (pl : Plane) (p : Vec3) : ℚ :=
  pl.normal.dot p - pl.constant

/-- Side membership as computed in `_sliceGeometry`: `s = d >= 0`
(main.js lines 2780-2782). -/
def sideOf (pl : Plane) (p : Vec3) : Bool := decide (0 ≤ pl.distanceToPoint p)

/-- One input triangle: an ordered triple of (world-space) vertex positions,
as read off the indexed position buffer three indices at a time. -/
abbrev Tri := Vec3 × Vec3 × Vec3

/-- Vertex `i` of a triangle, mirroring `verts[i]`. -/
def triVert (t : Tri) : Fin 3 → Vec3
  | 0 => t.1
  | 1 => t.2.1
  | 2 => t.2.2

/-- Signed distance of vertex `i` of a triangle, mirroring `dists[i]`. -/
def triDist (pl : Plane) (t : Tri) (i : Fin 3) : ℚ :=
  pl.distanceToPoint (triVert t i)

/-- The vertex stream of a triangle list (the flattened position buffer). -/
def flatTris (mesh : List Tri) : List Vec3 :=
  mesh.flatMap (fun t => [t.1, t.2.1, t.2.2])

/-- Whether a triangle straddles the plane: the negation of the code's
all-on-one-side test `s0 === s1 && s1 === s2` (main.js line 2785). -/
def crossingTri (pl : Plane) (t : Tri) : Bool :=
  !(sideOf pl t.1 == sideOf pl t.2.1 && sideOf pl t.2.1 == sideOf pl t.2.2)

/-- Index of the lone vertex, mirroring the chain at main.js lines 2800-2803:
`if(s0 !== s1 && s0 !== s2) loneIdx = 0; else if(s1 !== s0 && s1 !== s2)
loneIdx = 1; else loneIdx = 2;`. -/
def loneIdx (pl : Plane) (t : Tri) : Fin 3 :=
  let s0 := sideOf pl t.1
  let s1 := sideOf pl t.2.1
  let s2 := sideOf pl t.2.2
  if s0 ≠ s1 ∧ s0 ≠ s2 then 0
  else if s1 ≠ s0 ∧ s1 ≠ s2 then 1
  else 2

/-- The side the lone vertex lies on, mirroring `sides[loneIdx]`. -/
def loneSideA (pl : Plane) (t : Tri) : Bool :=
  sideOf pl (triVert t (loneIdx pl t))

/-- Accumulated output of the per-triangle loop of `_sliceGeometry`:
the flat vertex arrays `trianglesA`/`trianglesB` (three entries per emitted
triangle, exactly as the source pushes `Vector3`s) and the two cap-point
collections `capPointsA`/`capPointsB`. -/
structure SliceAcc where
  trianglesA : List Vec3
  trianglesB : List Vec3
  capPointsA : List Vec3
  capPointsB : List Vec3
deriving DecidableEq

/-- The split branch of `_sliceGeometry` (main.js lines 2805-2834) for a
crossing triangle, given the lone vertex and the two majority vertices in the
source's order `verts[(loneIdx+1)%3]`, `verts[(loneIdx+2)%3]`.  The signed
distances are recomputed by the same classifier the loop stored in
`vertexSides`. -/
def splitTri (pl : Plane) (lone other1 other2 : Vec3) : SliceAcc :=
  let loneDist := pl.distanceToPoint lone
  let dist1 := pl.distanceToPoint other1
  let dist2 := pl.distanceToPoint other2
  let t1 := loneDist / (loneDist - dist1)
  let t2 := loneDist / (loneDist - dist2)
  let int1 := Vec3.lerpVectors lone other1 t1
  let int2 := Vec3.lerpVectors lone other2 t2
  if 0 ≤ loneDist then
    ⟨[lone, int1, int2],
     [int1, other1, other2, int1, other2, int2],
     [int1, int2], [int1, int2]⟩
  else
    ⟨[int1, other1, other2, int1, other2, int2],
     [lone, int1, int2],
     [int1, int2], [int1, int2]⟩

/-- One iteration of the triangle loop of `_sliceGeometry` (main.js lines
2768-2836): keep the triangle whole on one side, or split it, matching the
source's lone-vertex selection. -/
def sliceTri (pl : Plane) (t : Tri) : SliceAcc :=
  let v0 := t.1
  let v1 := t.2.1
  let v2 := t.2.2
  let s0 := sideOf pl v0
  let s1 := sideOf pl v1
  let s2 := sideOf pl v2
  if s0 = s1 ∧ s1 = s2 then
    if s0 = true then ⟨[v0, v1, v2], [], [], []⟩ else ⟨[], [v0, v1, v2], [], []⟩
  else if s0 ≠ s1 ∧ s0 ≠ s2 then splitTri pl v0 v1 v2
  else if s1 ≠ s0 ∧ s1 ≠ s2 then splitTri pl v1 v2 v0
  else splitTri pl v2 v0 v1

/-- The whole triangle loop of `_sliceGeometry`, accumulating the four lists
in iteration order. -/
def sliceTriangles (pl : Plane) : List Tri → SliceAcc
  | [] => ⟨[], [], [], []⟩
  | t :: ts =>
    let r := sliceTri pl t
    let rest := sliceTriangles pl ts
    ⟨r.trianglesA ++ rest.trianglesA, r.trianglesB ++ rest.trianglesB,
     r.capPointsA ++ rest.capPointsA, r.capPointsB ++ rest.capPointsB⟩

/-- Whether mesh A is created: the source's guard `trianglesA.length >= 3`
(main.js line 2841), where `trianglesA` counts pushed `Vector3` entries. -/
def emittedA (pl : Plane) (mesh : List Tri) : Bool :=
  decide (3 ≤ (sliceTriangles pl mesh).trianglesA.length)

/-- Whether mesh B is created: `trianglesB.length >= 3` (main.js line 2865). -/
def emittedB (pl : Plane) (mesh : List Tri) : Bool :=
  decide (3 ≤ (sliceTriangles pl mesh).trianglesB.length)

/-- Emitted triangles per side, counted in triangles rather than in vertex
entries (each emitted triangle occupies three consecutive entries). -/
def triCount (l : List Vec3) : ℕ := l.length / 3

/-- The deduplication loop opening `_sortPointsAroundCenter` (main.js lines
2938-2950): keep a point only if no already-kept point is within distance
`0.01` of it, first-seen representative wins.  The source compares
`p.distanceTo(up) < 0.01`; both sides being nonnegative, this is embedded as
the equivalent `distanceToSquared < 1/10000`. -/
def dedupLoop : List Vec3 → List Vec3 → List Vec3
  | acc, [] => acc
  | acc, p :: rest =>
    if acc.any (fun up => decide (p.distanceToSquared up < 1 / 10000)) then
      dedupLoop acc rest
    else dedupLoop (acc ++ [p]) rest

/-- Deduplicated cut points (`uniquePoints` in the source), in first-seen
order. -/
def dedupPoints (points : List Vec3) : List Vec3 := dedupLoop [] points

/-- The cap fan apex of `_addCapToGeometry` (main.js lines 2906-2909): the sum
of the raw cap points divided by their count. -/
def capCenter (capPoints : List Vec3) : Vec3 :=
  (capPoints.foldl Vec3.add ⟨0, 0, 0⟩).divideScalar capPoints.length

/-- Category of `atan2(y, x)` inside `(-pi, pi]`: `0` for `(-pi, 0)`, `1` for
`0`, `2` for `(0, pi)`, `3` for `pi`.  Used to compare two `atan2` values
exactly, without computing them. -/
def angleCat (x y : ℚ) : ℕ :=
  if y < 0 then 0
  else if y = 0 ∧ 0 ≤ x then 1
  else if 0 < y then 2
  else 3

/-- Exact strict comparison of `atan2(y1, x1) < atan2(y2, x2)`: compare the
categories, and inside an open half-plane (categories `0` and `2`, where two
angles are less than `pi` apart) compare by the sign of the 2D cross product.
Categories `1` and `3` each contain a single angle value. -/
def angleLtB (x1 y1 x2 y2 : ℚ) : Bool :=
  let c1 := angleCat x1 y1
  let c2 := angleCat x2 y2
  if c1 = c2 then
    decide ((c1 = 0 ∨ c1 = 2) ∧ 0 < x1 * y2 - y1 * x2)
  else decide (c1 < c2)

/-- Stable insertion of a point into a sorted list under a boolean `le`. -/
def insertSorted (le : Vec3 → Vec3 → Bool) (p : Vec3) : List Vec3 → List Vec3
  | [] => [p]
  | q :: rest => if le p q = true then p :: q :: rest else q :: insertSorted le p rest

/-- Stable sort under a boolean `le`.  `Array.prototype.sort` with the
comparator `(a, b) => a.angle - b.angle` is a stable ascending sort; for a
total preorder the stable ascending order is unique, so any stable sort is an
extensionally faithful embedding of it. -/
def stableSortBy (le : Vec3 → Vec3 → Bool) : List Vec3 → List Vec3
  | [] => []
  | p :: rest => insertSorted le p (stableSortBy le rest)

/-- `_sortPointsAroundCenter` (main.js lines 2936-2981): deduplicate, build a
tangent/bitangent basis in the cap plane, and sort the unique points by
`atan2` of their local 2D coordinates relative to `center`.

Two embedding notes, both order-preserving under exact arithmetic:
the guard `tangent.length() < 0.001` is embedded as `lengthSq < 1/1000000`,
and the two `normalize()` calls are omitted.  Normalizing rescales the local
`x` coordinates by one positive factor and the local `y` coordinates by
another, which changes no `atan2` category and no cross-product sign, hence no
comparison result; and when a tangent is the zero vector three.js's
`normalize` leaves it zero (`divideScalar(length || 1)`), making every local
coordinate `0` in both the source and this embedding. -/
def sortPointsAroundCenter (points : List Vec3) (center normal : Vec3) : List Vec3 :=
  let uniquePoints := dedupPoints points
  if uniquePoints.length < 3 then uniquePoints
  else
    let tangent0 := normal.cross ⟨0, 1, 0⟩
    let tangent := if tangent0.lengthSq < 1 / 1000000 then normal.cross ⟨1, 0, 0⟩
                   else tangent0
    let bitangent := normal.cross tangent
    stableSortBy (fun a b =>
      let ra := a.sub center
      let rb := b.sub center
      !(angleLtB (rb.dot tangent) (rb.dot bitangent)
                 (ra.dot tangent) (ra.dot bitangent))) uniquePoints

/-- The fan triangulation loop of `_addCapToGeometry` (main.js lines
2915-2923): for `i` from `0` to `n-1`, emit the triangle
`(center, sorted[i], sorted[(i+1) % n])`.  Pairing each point with its cyclic
successor is expressed with `rotate 1`, whose `i`-th element is
`sorted[(i+1) % n]`. -/
def capFan (center : Vec3) (sorted : List Vec3) : List Vec3 :=
  (sorted.zip (sorted.rotate 1)).flatMap (fun pq => [center, pq.1, pq.2])

/-- `_addCapToGeometry` (main.js lines 2903-2934): bail out below 4 raw cap
points, compute the fan apex over the raw points, sort (which also
deduplicates), bail out below 3 unique points, else append the fan triangles
to the existing position list. -/
def addCapToGeometry (existing capPoints : List Vec3) (normal : Vec3) : List Vec3 :=
  if capPoints.length < 4 then existing
  else
    let center := capCenter capPoints
    let sortedPoints := sortPointsAroundCenter capPoints center normal
    if sortedPoints.length < 3 then existing
    else existing ++ capFan center sortedPoints

/-- Side A's position list as assembled at main.js lines 2841-2849:
`_createGeometryFromTriangles(trianglesA)` (the identity on the vertex
stream), plus the cap with the negated plane normal when `capPointsA.length
>= 4`. -/
def geometryA (pl : Plane) (mesh : List Tri) : List Vec3 :=
  let acc := sliceTriangles pl mesh
  if 4 ≤ acc.capPointsA.length then
    addCapToGeometry acc.trianglesA acc.capPointsA pl.normal.negate
  else acc.trianglesA

/-- Side B's position list (main.js lines 2865-2873), cap built with the plane
normal as is. -/
def geometryB (pl : Plane) (mesh : List Tri) : List Vec3 :=
  let acc := sliceTriangles pl mesh
  if 4 ≤ acc.capPointsB.length then
    addCapToGeometry acc.trianglesB acc.capPointsB pl.normal
  else acc.trianglesB

/-- Side A's output as seen by the caller: its position list when the side is
emitted, nothing otherwise. -/
def outputA (pl : Plane) (mesh : List Tri) : List Vec3 :=
  if emittedA pl mesh = true then geometryA pl mesh else []

/-- Side B's output as seen by the caller. -/
def outputB (pl : Plane) (mesh : List Tri) : List Vec3 :=
  if emittedB pl mesh = true then geometryB pl mesh else []

/-- The `meshes` array `_sliceGeometry` returns: the position list of each
side that passes its emission guard, side A first. -/
def sliceGeometryMeshes (pl : Plane) (mesh : List Tri) : List (List Vec3) :=
  (if emittedA pl mesh = true then [geometryA pl mesh] else []) ++
  (if emittedB pl mesh = true then [geometryB pl mesh] else [])

/-- Reading a flat position list back as consecutive vertex triples, as the
renderer (and a re-slice of an emitted piece) does. -/
def toTriangles : List Vec3 → List Tri
  | a :: b :: c :: rest => (a, b, c) :: toTriangles rest
  | _ => []

/-! Helper lemmas about the classifier and the split branch. -/

theorem distanceToPoint_lerp (pl : Plane) (a b : Vec3) (t : ℚ) :
    pl.distanceToPoint (Vec3.lerpVectors a b t) =
      pl.distanceToPoint a + (pl.distanceToPoint b - pl.distanceToPoint a) * t := by
  simp only [Plane.distanceToPoint, Vec3.lerpVectors, Vec3.dot]
  ring

theorem sideOf_true_iff (pl : Plane) (p : Vec3) :
    sideOf pl p = true ↔ 0 ≤ pl.distanceToPoint p := by
  simp [sideOf]

theorem sideOf_false_iff (pl : Plane) (p : Vec3) :
    sideOf pl p = false ↔ pl.distanceToPoint p < 0 := by
  simp [sideOf, not_le]

theorem sideOf_ne_dist_sub_ne (pl : Plane) (a b : Vec3)
    (h : sideOf pl a ≠ sideOf pl b) :
    pl.distanceToPoint a - pl.distanceToPoint b ≠ 0 := by
  rcases hb : sideOf pl b with _ | _
  · rw [hb] at h
    replace h := Bool.ne_false_iff.mp h
    rw [sideOf_true_iff] at h
    rw [sideOf_false_iff] at hb
    intro hc
    nlinarith
  · rw [hb] at h
    replace h := Bool.eq_false_iff.mpr h
    rw [sideOf_false_iff] at h
    rw [sideOf_true_iff] at hb
    intro hc
    nlinarith

theorem cut_on_plane (pl : Plane) (a b : Vec3)
    (h : sideOf pl a ≠ sideOf pl b) :
    pl.distanceToPoint (Vec3.lerpVectors a b
      (pl.distanceToPoint a / (pl.distanceToPoint a - pl.distanceToPoint b))) = 0 := by
  have hne := sideOf_ne_dist_sub_ne pl a b h
  rw [distanceToPoint_lerp]
  field_simp
  ring

theorem splitTri_capPointsA_eq_capPointsB (pl : Plane) (a b c : Vec3) :
    (splitTri pl a b c).capPointsA = (splitTri pl a b c).capPointsB := by
  simp only [splitTri]
  split_ifs <;> rfl

theorem splitTri_cap_dist_zero (pl : Plane) (lone o1 o2 : Vec3)
    (h1 : sideOf pl lone ≠ sideOf pl o1) (h2 : sideOf pl lone ≠ sideOf pl o2) :
    ∀ p ∈ (splitTri pl lone o1 o2).capPointsA, pl.distanceToPoint p = 0 := by
  simp only [splitTri]
  split_ifs <;>
    · intro p hp
      simp only [List.mem_cons, List.not_mem_nil, or_false] at hp
      rcases hp with rfl | rfl
      · exact cut_on_plane pl lone o1 h1
      · exact cut_on_plane pl lone o2 h2

theorem splitTri_A_nonneg (pl : Plane) (lone o1 o2 : Vec3)
    (h1 : sideOf pl lone ≠ sideOf pl o1) (h2 : sideOf pl lone ≠ sideOf pl o2) :
    ∀ v ∈ (splitTri pl lone o1 o2).trianglesA, 0 ≤ pl.distanceToPoint v := by
  simp only [splitTri]
  split_ifs with hl
  · intro v hv
    simp only [List.mem_cons, List.not_mem_nil, or_false] at hv
    rcases hv with rfl | rfl | rfl
    · exact hl
    · exact le_of_eq (cut_on_plane pl lone o1 h1).symm
    · exact le_of_eq (cut_on_plane pl lone o2 h2).symm
  · have hlf : sideOf pl lone = false := by
      rw [sideOf_false_iff]; exact not_le.mp hl
    have ho1 : 0 ≤ pl.distanceToPoint o1 := by
      rw [hlf] at h1
      exact (sideOf_true_iff pl o1).mp (Bool.ne_false_iff.mp (Ne.symm h1))
    have ho2 : 0 ≤ pl.distanceToPoint o2 := by
      rw [hlf] at h2
      exact (sideOf_true_iff pl o2).mp (Bool.ne_false_iff.mp (Ne.symm h2))
    intro v hv
    simp only [List.mem_cons, List.not_mem_nil, or_false] at hv
    rcases hv with rfl | rfl | rfl | rfl | rfl | rfl
    · exact le_of_eq (cut_on_plane pl lone o1 h1).symm
    · exact ho1
    · exact ho2
    · exact le_of_eq (cut_on_plane pl lone o1 h1).symm
    · exact ho2
    · exact le_of_eq (cut_on_plane pl lone o2 h2).symm

theorem splitTri_B_nonpos (pl : Plane) (lone o1 o2 : Vec3)
    (h1 : sideOf pl lone ≠ sideOf pl o1) (h2 : sideOf pl lone ≠ sideOf pl o2) :
    ∀ v ∈ (splitTri pl lone o1 o2).trianglesB, pl.distanceToPoint v ≤ 0 := by
  simp only [splitTri]
  split_ifs with hl
  · have hlt : sideOf pl lone = true := (sideOf_true_iff pl lone).mpr hl
    have ho1 : pl.distanceToPoint o1 < 0 := by
      rw [hlt] at h1
      exact (sideOf_false_iff pl o1).mp (Bool.eq_false_iff.mpr (Ne.symm h1))
    have ho2 : pl.distanceToPoint o2 < 0 := by
      rw [hlt] at h2
      exact (sideOf_false_iff pl o2).mp (Bool.eq_false_iff.mpr (Ne.symm h2))
    intro v hv
    simp only [List.mem_cons, List.not_mem_nil, or_false] at hv
    rcases hv with rfl | rfl | rfl | rfl | rfl | rfl
    · exact le_of_eq (cut_on_plane pl lone o1 h1)
    · exact le_of_lt ho1
    · exact le_of_lt ho2
    · exact le_of_eq (cut_on_plane pl lone o1 h1)
    · exact le_of_lt ho2
    · exact le_of_eq (cut_on_plane pl lone o2 h2)
  · intro v hv
    simp only [List.mem_cons, List.not_mem_nil, or_false] at hv
    rcases hv with rfl | rfl | rfl
    · exact le_of_lt (not_le.mp hl)
    · exact le_of_eq (cut_on_plane pl lone o1 h1)
    · exact le_of_eq (cut_on_plane pl lone o2 h2)

theorem lone_of_else (s0 s1 s2 : Bool) (hc : ¬(s0 = s1 ∧ s1 = s2))
    (h0 : ¬(s0 ≠ s1 ∧ s0 ≠ s2)) (h1 : ¬(s1 ≠ s0 ∧ s1 ≠ s2)) :
    s2 ≠ s0 ∧ s2 ≠ s1 := by
  revert hc h0 h1
  revert s0 s1 s2
  decide

theorem crossingTri_eq_true_iff (pl : Plane) (t : Tri) :
    crossingTri pl t = true ↔
      ¬(sideOf pl t.1 = sideOf pl t.2.1 ∧ sideOf pl t.2.1 = sideOf pl t.2.2) := by
  simp [crossingTri]
  tauto

/-! Per-triangle facts, total over all branches of `sliceTri`. -/

theorem sliceTri_A_nonneg (pl : Plane) (t : Tri) :
    ∀ v ∈ (sliceTri pl t).trianglesA, 0 ≤ pl.distanceToPoint v := by
  simp only [sliceTri]
  split_ifs with hs hs0 h01 h1
  · intro v hv
    simp only [List.mem_cons, List.not_mem_nil, or_false] at hv
    rcases hv with rfl | rfl | rfl
    · exact (sideOf_true_iff pl t.1).mp hs0
    · exact (sideOf_true_iff pl t.2.1).mp (hs.1 ▸ hs0)
    · exact (sideOf_true_iff pl t.2.2).mp (hs.2 ▸ hs.1 ▸ hs0)
  · intro v hv
    simp at hv
  · exact splitTri_A_nonneg pl t.1 t.2.1 t.2.2 h01.1 h01.2
  · exact splitTri_A_nonneg pl t.2.1 t.2.2 t.1 h1.2 h1.1
  · have h2 := lone_of_else _ _ _ hs h01 h1
    exact splitTri_A_nonneg pl t.2.2 t.1 t.2.1 h2.1 h2.2

theorem sliceTri_B_nonpos (pl : Plane) (t : Tri) :
    ∀ v ∈ (sliceTri pl t).trianglesB, pl.distanceToPoint v ≤ 0 := by
  simp only [sliceTri]
  split_ifs with hs hs0 h01 h1
  · intro v hv
    simp at hv
  · have hs0f : sideOf pl t.1 = false := Bool.eq_false_iff.mpr hs0
    intro v hv
    simp only [List.mem_cons, List.not_mem_nil, or_false] at hv
    rcases hv with rfl | rfl | rfl
    · exact le_of_lt ((sideOf_false_iff pl t.1).mp hs0f)
    · exact le_of_lt ((sideOf_false_iff pl t.2.1).mp (hs.1 ▸ hs0f))
    · exact le_of_lt ((sideOf_false_iff pl t.2.2).mp (hs.2 ▸ hs.1 ▸ hs0f))
  · exact splitTri_B_nonpos pl t.1 t.2.1 t.2.2 h01.1 h01.2
  · exact splitTri_B_nonpos pl t.2.1 t.2.2 t.1 h1.2 h1.1
  · have h2 := lone_of_else _ _ _ hs h01 h1
    exact splitTri_B_nonpos pl t.2.2 t.1 t.2.1 h2.1 h2.2

theorem sliceTri_capPointsA_eq (pl : Plane) (t : Tri) :
    (sliceTri pl t).capPointsA = (sliceTri pl t).capPointsB := by
  simp only [sliceTri]
  split_ifs with hs hs0 h01 h1
  · rfl
  · rfl
  · exact splitTri_capPointsA_eq_capPointsB pl t.1 t.2.1 t.2.2
  · exact splitTri_capPointsA_eq_capPointsB pl t.2.1 t.2.2 t.1
  · exact splitTri_capPointsA_eq_capPointsB pl t.2.2 t.1 t.2.1

theorem sliceTri_cap_zero (pl : Plane) (t : Tri) :
    ∀ p ∈ (sliceTri pl t).capPointsA, pl.distanceToPoint p = 0 := by
  simp only [sliceTri]
  split_ifs with hs hs0 h01 h1
  · intro p hp
    simp at hp
  · intro p hp
    simp at hp
  · exact splitTri_cap_dist_zero pl t.1 t.2.1 t.2.2 h01.1 h01.2
  · exact splitTri_cap_dist_zero pl t.2.1 t.2.2 t.1 h1.2 h1.1
  · have h2 := lone_of_else _ _ _ hs h01 h1
    exact splitTri_cap_dist_zero pl t.2.2 t.1 t.2.1 h2.1 h2.2

theorem splitTri_lengths (pl : Plane) (lone o1 o2 : Vec3) :
    ((splitTri pl lone o1 o2).trianglesA.length,
     (splitTri pl lone o1 o2).trianglesB.length) =
      if sideOf pl lone = true then (3, 6) else (6, 3) := by
  simp only [splitTri]
  by_cases hl : 0 ≤ pl.distanceToPoint lone
  · rw [if_pos hl, if_pos ((sideOf_true_iff pl lone).mpr hl)]
    rfl
  · rw [if_neg hl, if_neg (by simpa [sideOf_true_iff] using hl)]
    rfl

theorem sliceTri_lengths (pl : Plane) (t : Tri) :
    ((sliceTri pl t).trianglesA.length, (sliceTri pl t).trianglesB.length) =
      if crossingTri pl t = true then
        (if loneSideA pl t = true then (3, 6) else (6, 3))
      else (if sideOf pl t.1 = true then (3, 0) else (0, 3)) := by
  by_cases hs : sideOf pl t.1 = sideOf pl t.2.1 ∧ sideOf pl t.2.1 = sideOf pl t.2.2
  · have hcf : ¬(crossingTri pl t = true) := by
      rw [crossingTri_eq_true_iff]
      exact not_not_intro hs
    rw [if_neg hcf]
    simp only [sliceTri, if_pos hs]
    by_cases hs0 : sideOf pl t.1 = true
    · rw [if_pos hs0, if_pos hs0]
      rfl
    · rw [if_neg hs0, if_neg hs0]
      rfl
  · have hct : crossingTri pl t = true := (crossingTri_eq_true_iff pl t).mpr hs
    rw [if_pos hct]
    have hlone : loneSideA pl t = sideOf pl (triVert t (loneIdx pl t)) := rfl
    simp only [sliceTri, if_neg hs]
    by_cases h01 : sideOf pl t.1 ≠ sideOf pl t.2.1 ∧ sideOf pl t.1 ≠ sideOf pl t.2.2
    · have hidx : loneIdx pl t = 0 := by
        simp only [loneIdx]
        rw [if_pos h01]
      rw [if_pos h01, hlone, hidx]
      exact splitTri_lengths pl t.1 t.2.1 t.2.2
    · rw [if_neg h01]
      by_cases h1 : sideOf pl t.2.1 ≠ sideOf pl t.1 ∧ sideOf pl t.2.1 ≠ sideOf pl t.2.2
      · have hidx : loneIdx pl t = 1 := by
          simp only [loneIdx]
          rw [if_neg h01, if_pos h1]
        rw [if_pos h1, hlone, hidx]
        exact splitTri_lengths pl t.2.1 t.2.2 t.1
      · have hidx : loneIdx pl t = 2 := by
          simp only [loneIdx]
          rw [if_neg h01, if_neg h1]
        rw [if_neg h1, hlone, hidx]
        exact splitTri_lengths pl t.2.2 t.1 t.2.1

theorem sliceTri_total_length (pl : Plane) (t : Tri) :
    (sliceTri pl t).trianglesA.length + (sliceTri pl t).trianglesB.length =
      if crossingTri pl t = true then 9 else 3 := by
  have h := sliceTri_lengths pl t
  by_cases hc : crossingTri pl t = true
  · rw [if_pos hc] at h ⊢
    by_cases hl : loneSideA pl t = true
    · rw [if_pos hl] at h
      rw [Prod.mk.injEq] at h
      omega
    · rw [if_neg hl] at h
      rw [Prod.mk.injEq] at h
      omega
  · rw [if_neg hc] at h ⊢
    by_cases hl : sideOf pl t.1 = true
    · rw [if_pos hl] at h
      rw [Prod.mk.injEq] at h
      omega
    · rw [if_neg hl] at h
      rw [Prod.mk.injEq] at h
      omega

/-! Facts about the whole triangle loop, by induction on the mesh. -/

theorem sliceTriangles_cons (pl : Plane) (t : Tri) (ts : List Tri) :
    sliceTriangles pl (t :: ts) =
      ⟨(sliceTri pl t).trianglesA ++ (sliceTriangles pl ts).trianglesA,
       (sliceTri pl t).trianglesB ++ (sliceTriangles pl ts).trianglesB,
       (sliceTri pl t).capPointsA ++ (sliceTriangles pl ts).capPointsA,
       (sliceTri pl t).capPointsB ++ (sliceTriangles pl ts).capPointsB⟩ := rfl

theorem trianglesA_nonneg (pl : Plane) (mesh : List Tri) :
    ∀ v ∈ (sliceTriangles pl mesh).trianglesA, 0 ≤ pl.distanceToPoint v := by
  induction mesh with
  | nil => intro v hv; simp [sliceTriangles] at hv
  | cons t ts ih =>
    intro v hv
    rw [sliceTriangles_cons] at hv
    rcases List.mem_append.mp hv with h | h
    · exact sliceTri_A_nonneg pl t v h
    · exact ih v h

theorem trianglesB_nonpos (pl : Plane) (mesh : List Tri) :
    ∀ v ∈ (sliceTriangles pl mesh).trianglesB, pl.distanceToPoint v ≤ 0 := by
  induction mesh with
  | nil => intro v hv; simp [sliceTriangles] at hv
  | cons t ts ih =>
    intro v hv
    rw [sliceTriangles_cons] at hv
    rcases List.mem_append.mp hv with h | h
    · exact sliceTri_B_nonpos pl t v h
    · exact ih v h

theorem capPointsA_eq_capPointsB (pl : Plane) (mesh : List Tri) :
    (sliceTriangles pl mesh).capPointsA = (sliceTriangles pl mesh).capPointsB := by
  induction mesh with
  | nil => rfl
  | cons t ts ih =>
    simp only [sliceTriangles_cons]
    rw [sliceTri_capPointsA_eq, ih]

theorem capPointsA_dist_zero (pl : Plane) (mesh : List Tri) :
    ∀ p ∈ (sliceTriangles pl mesh).capPointsA, pl.distanceToPoint p = 0 := by
  induction mesh with
  | nil => intro p hp; simp [sliceTriangles] at hp
  | cons t ts ih =>
    intro p hp
    rw [sliceTriangles_cons] at hp
    rcases List.mem_append.mp hp with h | h
    · exact sliceTri_cap_zero pl t p h
    · exact ih p h

theorem length_sum_law (pl : Plane) (mesh : List Tri) :
    (sliceTriangles pl mesh).trianglesA.length +
      (sliceTriangles pl mesh).trianglesB.length =
      3 * mesh.length +
        6 * (mesh.filter (fun t => crossingTri pl t)).length := by
  induction mesh with
  | nil => rfl
  | cons t ts ih =>
    simp only [sliceTriangles_cons, List.length_append, List.length_cons,
      List.filter_cons]
    have h := sliceTri_total_length pl t
    split_ifs with hft
    · rw [if_pos (by exact hft)] at h
      simp only [List.length_cons]
      omega
    · rw [if_neg (by exact hft)] at h
      omega

theorem sliceTri_length_cases (pl : Plane) (t : Tri) :
    ((sliceTri pl t).trianglesA.length = 3 ∧ (sliceTri pl t).trianglesB.length = 0) ∨
    ((sliceTri pl t).trianglesA.length = 0 ∧ (sliceTri pl t).trianglesB.length = 3) ∨
    ((sliceTri pl t).trianglesA.length = 3 ∧ (sliceTri pl t).trianglesB.length = 6) ∨
    ((sliceTri pl t).trianglesA.length = 6 ∧ (sliceTri pl t).trianglesB.length = 3) := by
  have h := sliceTri_lengths pl t
  by_cases hc : crossingTri pl t = true
  · rw [if_pos hc] at h
    by_cases hl : loneSideA pl t = true
    · rw [if_pos hl, Prod.mk.injEq] at h
      exact Or.inr (Or.inr (Or.inl h))
    · rw [if_neg hl, Prod.mk.injEq] at h
      exact Or.inr (Or.inr (Or.inr h))
  · rw [if_neg hc] at h
    by_cases hl : sideOf pl t.1 = true
    · rw [if_pos hl, Prod.mk.injEq] at h
      exact Or.inl h
    · rw [if_neg hl, Prod.mk.injEq] at h
      exact Or.inr (Or.inl h)

theorem three_dvd_lengths (pl : Plane) (mesh : List Tri) :
    3 ∣ (sliceTriangles pl mesh).trianglesA.length ∧
      3 ∣ (sliceTriangles pl mesh).trianglesB.length := by
  induction mesh with
  | nil => exact ⟨⟨0, rfl⟩, ⟨0, rfl⟩⟩
  | cons t ts ih =>
    simp only [sliceTriangles_cons, List.length_append]
    rcases sliceTri_length_cases pl t with ⟨hA, hB⟩ | ⟨hA, hB⟩ | ⟨hA, hB⟩ | ⟨hA, hB⟩ <;>
      · rw [hA, hB]
        omega

/-! Helper lemmas about the cap builder. -/

theorem dedupLoop_mem (pts : List Vec3) :
    ∀ (acc : List Vec3) (x : Vec3), x ∈ dedupLoop acc pts → x ∈ acc ∨ x ∈ pts := by
  induction pts with
  | nil =>
    intro acc x hx
    exact Or.inl hx
  | cons p rest ih =>
    intro acc x hx
    by_cases hc :
        (acc.any fun up => decide (p.distanceToSquared up < 1 / 10000)) = true
    · rw [dedupLoop, if_pos hc] at hx
      rcases ih acc x hx with h | h
      · exact Or.inl h
      · exact Or.inr (List.mem_cons_of_mem p h)
    · rw [dedupLoop, if_neg hc] at hx
      rcases ih (acc ++ [p]) x hx with h | h
      · rcases List.mem_append.mp h with h | h
        · exact Or.inl h
        · exact Or.inr (by simp at h; simp [h])
      · exact Or.inr (List.mem_cons_of_mem p h)

theorem dedupPoints_mem (pts : List Vec3) (x : Vec3)
    (hx : x ∈ dedupPoints pts) : x ∈ pts := by
  rcases dedupLoop_mem pts [] x hx with h | h
  · simp at h
  · exact h

theorem mem_insertSorted (le : Vec3 → Vec3 → Bool) (p x : Vec3) :
    ∀ l : List Vec3, x ∈ insertSorted le p l → x = p ∨ x ∈ l := by
  intro l
  induction l with
  | nil =>
    intro hx
    simp [insertSorted] at hx
    exact Or.inl hx
  | cons q rest ih =>
    intro hx
    rw [insertSorted] at hx
    by_cases hle : le p q = true
    · rw [if_pos hle] at hx
      rcases List.mem_cons.mp hx with rfl | hx
      · exact Or.inl rfl
      · exact Or.inr hx
    · rw [if_neg hle] at hx
      rcases List.mem_cons.mp hx with rfl | hx
      · exact Or.inr (by simp)
      · rcases ih hx with h | h
        · exact Or.inl h
        · exact Or.inr (List.mem_cons_of_mem q h)

theorem mem_stableSortBy (le : Vec3 → Vec3 → Bool) (x : Vec3) :
    ∀ l : List Vec3, x ∈ stableSortBy le l → x ∈ l := by
  intro l
  induction l with
  | nil =>
    intro hx
    simp [stableSortBy] at hx
  | cons p rest ih =>
    intro hx
    rw [stableSortBy] at hx
    rcases mem_insertSorted le p x (stableSortBy le rest) hx with rfl | hx
    · exact List.mem_cons_self x rest
    · exact List.mem_cons_of_mem p (ih hx)

theorem sortPointsAroundCenter_mem (pts : List Vec3) (center normal x : Vec3)
    (hx : x ∈ sortPointsAroundCenter pts center normal) : x ∈ dedupPoints pts := by
  simp only [sortPointsAroundCenter] at hx
  by_cases hlen : (dedupPoints pts).length < 3
  · rw [if_pos hlen] at hx
    exact hx
  · rw [if_neg hlen] at hx
    exact mem_stableSortBy _ x _ hx

theorem capFan_mem (c : Vec3) (sorted : List Vec3) (v : Vec3)
    (hv : v ∈ capFan c sorted) : v = c ∨ v ∈ sorted := by
  simp only [capFan, List.mem_flatMap] at hv
  obtain ⟨pq, hpq, hv⟩ := hv
  simp only [List.mem_cons, List.not_mem_nil, or_false] at hv
  rcases hv with rfl | rfl | rfl
  · exact Or.inl rfl
  · exact Or.inr (List.of_mem_zip hpq).1
  · exact Or.inr (List.mem_rotate.mp (List.of_mem_zip hpq).2)

theorem flatMap_triple_getD (c d : Vec3) :
    ∀ (l : List (Vec3 × Vec3)) (j : ℕ), j < l.length →
      ((l.flatMap fun pq => [c, pq.1, pq.2]).getD (3 * j) d) = c := by
  intro l
  induction l with
  | nil =>
    intro j hj
    simp at hj
  | cons pq rest ih =>
    intro j hj
    rw [List.flatMap_cons]
    cases j with
    | zero => rfl
    | succ j =>
      have h3 : 3 * (j + 1) = 3 * j + 1 + 1 + 1 := by ring
      rw [h3]
      simp only [List.cons_append, List.nil_append, List.getD_cons_succ]
      exact ih j (by simp only [List.length_cons] at hj; omega)

theorem Vec3.dot_add_right (n a b : Vec3) : n.dot (a.add b) = n.dot a + n.dot b := by
  simp only [Vec3.dot, Vec3.add]
  ring

theorem dot_foldl_add (n : Vec3) :
    ∀ (pts : List Vec3) (init : Vec3),
      n.dot (pts.foldl Vec3.add init) =
        n.dot init + (pts.map (fun p => n.dot p)).sum := by
  intro pts
  induction pts with
  | nil =>
    intro init
    simp
  | cons p rest ih =>
    intro init
    simp only [List.foldl_cons, List.map_cons, List.sum_cons, ih, Vec3.dot_add_right]
    ring

theorem sum_map_const_of (f : Vec3 → ℚ) (k : ℚ) :
    ∀ pts : List Vec3, (∀ p ∈ pts, f p = k) →
      (pts.map f).sum = pts.length * k := by
  intro pts
  induction pts with
  | nil =>
    intro
    simp
  | cons p rest ih =>
    intro h
    simp only [List.map_cons, List.sum_cons, List.length_cons]
    rw [h p (List.mem_cons_self p rest),
      ih (fun q hq => h q (List.mem_cons_of_mem p hq))]
    push_cast
    ring

theorem capCenter_dist_zero (pl : Plane) (pts : List Vec3) (hne : pts ≠ [])
    (hz : ∀ p ∈ pts, pl.distanceToPoint p = 0) :
    pl.distanceToPoint (capCenter pts) = 0 := by
  have hL : (pts.length : ℚ) ≠ 0 := by
    have h0 : 0 < pts.length := List.length_pos.mpr hne
    exact Nat.cast_ne_zero.mpr (Nat.pos_iff_ne_zero.mp h0)
  have hnp : ∀ p ∈ pts, pl.normal.dot p = -pl.constant := by
    intro p hp
    have := hz p hp
    rw [Plane.distanceToPoint] at this
    linarith
  have hsum := dot_foldl_add pl.normal pts ⟨0, 0, 0⟩
  rw [sum_map_const_of (fun p => pl.normal.dot p) (-pl.constant) pts hnp] at hsum
  have hdz : pl.normal.dot ⟨0, 0, 0⟩ = 0 := by
    simp [Vec3.dot]
  rw [hdz, zero_add] at hsum
  simp only [capCenter, Plane.distanceToPoint, Vec3.divideScalar, Vec3.dot] at hsum ⊢
  field_simp at hsum ⊢
  nlinarith [hsum]

theorem flatTris_cons (t : Tri) (ts : List Tri) :
    flatTris (t :: ts) = t.1 :: t.2.1 :: t.2.2 :: flatTris ts := rfl

theorem slice_all_A (pl : Plane) :
    ∀ mesh : List Tri, (∀ v ∈ flatTris mesh, sideOf pl v = true) →
      sliceTriangles pl mesh = ⟨flatTris mesh, [], [], []⟩ := by
  intro mesh
  induction mesh with
  | nil =>
    intro
    rfl
  | cons t ts ih =>
    intro h
    have h0 : sideOf pl t.1 = true := h t.1 (by rw [flatTris_cons]; simp)
    have h1 : sideOf pl t.2.1 = true := h t.2.1 (by rw [flatTris_cons]; simp)
    have h2 : sideOf pl t.2.2 = true := h t.2.2 (by rw [flatTris_cons]; simp)
    have hrest : ∀ v ∈ flatTris ts, sideOf pl v = true := by
      intro v hv
      exact h v (by rw [flatTris_cons]; simp [hv])
    have htri : sliceTri pl t = ⟨[t.1, t.2.1, t.2.2], [], [], []⟩ := by
      simp only [sliceTri]
      rw [if_pos ⟨h0.trans h1.symm, h1.trans h2.symm⟩, if_pos h0]
    rw [sliceTriangles_cons, ih hrest, htri, flatTris_cons]
    rfl

theorem slice_all_B (pl : Plane) :
    ∀ mesh : List Tri, (∀ v ∈ flatTris mesh, sideOf pl v = false) →
      sliceTriangles pl mesh = ⟨[], flatTris mesh, [], []⟩ := by
  intro mesh
  induction mesh with
  | nil =>
    intro
    rfl
  | cons t ts ih =>
    intro h
    have h0 : sideOf pl t.1 = false := h t.1 (by rw [flatTris_cons]; simp)
    have h1 : sideOf pl t.2.1 = false := h t.2.1 (by rw [flatTris_cons]; simp)
    have h2 : sideOf pl t.2.2 = false := h t.2.2 (by rw [flatTris_cons]; simp)
    have hrest : ∀ v ∈ flatTris ts, sideOf pl v = false := by
      intro v hv
      exact h v (by rw [flatTris_cons]; simp [hv])
    have htri : sliceTri pl t = ⟨[], [t.1, t.2.1, t.2.2], [], []⟩ := by
      simp only [sliceTri]
      rw [if_pos ⟨h0.trans h1.symm, h1.trans h2.symm⟩,
        if_neg (by rw [h0]; exact Bool.false_ne_true)]
    rw [sliceTriangles_cons, ih hrest, htri, flatTris_cons]
    rfl

theorem toTriangles_mem :
    ∀ l : List Vec3, ∀ t ∈ toTriangles l, t.1 ∈ l ∧ t.2.1 ∈ l ∧ t.2.2 ∈ l
  | [] => by
    intro t ht
    simp [toTriangles] at ht
  | [a] => by
    intro t ht
    simp [toTriangles] at ht
  | [a, b] => by
    intro t ht
    simp [toTriangles] at ht
  | a :: b :: c :: rest => by
    intro t ht
    rw [show toTriangles (a :: b :: c :: rest) = (a, b, c) :: toTriangles rest
      from rfl] at ht
    rcases List.mem_cons.mp ht with rfl | ht
    · exact ⟨by simp, by simp, by simp⟩
    · obtain ⟨m1, m2, m3⟩ := toTriangles_mem rest t ht
      exact ⟨by simp [m1], by simp [m2], by simp [m3]⟩

theorem flatTris_length (mesh : List Tri) :
    (flatTris mesh).length = 3 * mesh.length := by
  induction mesh with
  | nil => rfl
  | cons t ts ih =>
    rw [flatTris_cons]
    simp only [List.length_cons, List.length_cons, List.length_cons, ih]
    omega

theorem sliceTri_cap_length (pl : Plane) (t : Tri)
    (hc : crossingTri pl t = true) :
    (sliceTri pl t).capPointsA.length = 2 := by
  have hs := (crossingTri_eq_true_iff pl t).mp hc
  simp only [sliceTri, if_neg hs]
  split_ifs <;>
    · simp only [splitTri]
      split_ifs <;> rfl

theorem geometryA_nonneg (pl : Plane) (mesh : List Tri) :
    ∀ v ∈ geometryA pl mesh, 0 ≤ pl.distanceToPoint v := by
  intro v hv
  simp only [geometryA] at hv
  by_cases hcap : 4 ≤ (sliceTriangles pl mesh).capPointsA.length
  · rw [if_pos hcap] at hv
    simp only [addCapToGeometry] at hv
    rw [if_neg (by omega)] at hv
    by_cases hsort :
        (sortPointsAroundCenter (sliceTriangles pl mesh).capPointsA
          (capCenter (sliceTriangles pl mesh).capPointsA)
          pl.normal.negate).length < 3
    · rw [if_pos hsort] at hv
      exact trianglesA_nonneg pl mesh v hv
    · rw [if_neg hsort] at hv
      rcases List.mem_append.mp hv with h | h
      · exact trianglesA_nonneg pl mesh v h
      · have hne : (sliceTriangles pl mesh).capPointsA ≠ [] := by
          intro h0
          rw [h0] at hcap
          simp at hcap
        have hz := capPointsA_dist_zero pl mesh
        rcases capFan_mem _ _ v h with rfl | hmem
        · exact le_of_eq (capCenter_dist_zero pl _ hne hz).symm
        · have hd := sortPointsAroundCenter_mem _ _ _ v hmem
          exact le_of_eq (hz v (dedupPoints_mem _ v hd)).symm
  · rw [if_neg hcap] at hv
    exact trianglesA_nonneg pl mesh v hv

/-! Concrete fixtures used by witnesses and counterexamples. -/

/-- The plane `y = 0` with upward normal. -/
def plY : Plane := ⟨⟨0, 1, 0⟩, 0⟩

/-- A triangle straddling `plY`: one vertex above, two below. -/
def triCross : Tri := (⟨0, 2, 0⟩, ⟨0, -2, 0⟩, ⟨1, -2, 0⟩)

/-- A triangle entirely above `plY`. -/
def triUp : Tri := (⟨0, 1, 0⟩, ⟨1, 1, 0⟩, ⟨0, 1, 1⟩)

/-- A two-triangle mesh in which both triangles straddle `plY`, so side A's
output carries a cap. -/
def meshW : List Tri := [triCross, (⟨3, 2, 0⟩, ⟨3, -2, 0⟩, ⟨4, -2, 0⟩)]

/-- The plane `z = -1` as stored: normal `(0,0,1)`, `constant` field `1`. -/
def plZ : Plane := ⟨⟨0, 0, 1⟩, 1⟩

/-- The `+z` direction. -/
def nZ : Vec3 := ⟨0, 0, 1⟩

/-- A raw cap-point list holding one duplicated point. -/
def ptsDup : List Vec3 := [⟨0, 0, 0⟩, ⟨0, 0, 0⟩, ⟨4, 0, 0⟩, ⟨0, 4, 0⟩]

/-! Claim theorems. -/

/-- C1: Side purity: every surface triangle emitted by `_sliceGeometry` (cap
triangles excluded) has all three vertices at signed distance `>= 0` when
emitted to side A and `<= 0` when emitted to side B; in particular no emitted
surface triangle has one vertex strictly positive and another strictly
negative. -/
theorem slice_side_purity (pl : Plane) (mesh : List Tri) :
    (∀ v ∈ (sliceTriangles pl mesh).trianglesA, 0 ≤ pl.distanceToPoint v) ∧
    (∀ v ∈ (sliceTriangles pl mesh).trianglesB, pl.distanceToPoint v ≤ 0) :=
  ⟨trianglesA_nonneg pl mesh, trianglesB_nonpos pl mesh⟩

/-- Witness for C1 at a concrete crossing triangle. -/
theorem slice_side_purity_witness :
    (⟨0, 2, 0⟩ : Vec3) ∈ (sliceTriangles plY [triCross]).trianglesA ∧
      0 ≤ plY.distanceToPoint ⟨0, 2, 0⟩ :=
  ⟨by norm_num [sliceTriangles, sliceTri, splitTri, sideOf,
      Plane.distanceToPoint, Vec3.dot, Vec3.lerpVectors, plY, triCross],
   (slice_side_purity plY [triCross]).1 ⟨0, 2, 0⟩
     (by norm_num [sliceTriangles, sliceTri, splitTri, sideOf,
       Plane.distanceToPoint, Vec3.dot, Vec3.lerpVectors, plY, triCross])⟩

/-- C2: Triangle count law: with `N` input triangles of which `K` straddle the
plane, the slicer emits `(N - K) + 3 K` surface triangles in total (caps
excluded); each non-crossing triangle contributes one triangle to exactly one
side, and each crossing triangle contributes one triangle to the lone
vertex's side and two to the other side. -/
theorem slice_triangle_count_law (pl : Plane) (mesh : List Tri) :
    triCount (sliceTriangles pl mesh).trianglesA +
        triCount (sliceTriangles pl mesh).trianglesB =
      (mesh.length - (mesh.filter (fun t => crossingTri pl t)).length) +
        3 * (mesh.filter (fun t => crossingTri pl t)).length ∧
    (∀ t : Tri,
      (triCount (sliceTri pl t).trianglesA, triCount (sliceTri pl t).trianglesB) =
        if crossingTri pl t = true then
          (if loneSideA pl t = true then (1, 2) else (2, 1))
        else if sideOf pl t.1 = true then (1, 0) else (0, 1)) := by
  constructor
  · have hsum := length_sum_law pl mesh
    have hdvd := three_dvd_lengths pl mesh
    have hK := List.length_filter_le (fun t => crossingTri pl t) mesh
    simp only [triCount]
    omega
  · intro t
    have h := sliceTri_lengths pl t
    simp only [triCount]
    by_cases hc : crossingTri pl t = true
    · rw [if_pos hc] at h ⊢
      by_cases hl : loneSideA pl t = true
      · rw [if_pos hl] at h ⊢
        rw [Prod.mk.injEq] at h ⊢
        omega
      · rw [if_neg hl] at h ⊢
        rw [Prod.mk.injEq] at h ⊢
        omega
    · rw [if_neg hc] at h ⊢
      by_cases hl : sideOf pl t.1 = true
      · rw [if_pos hl] at h ⊢
        rw [Prod.mk.injEq] at h ⊢
        omega
      · rw [if_neg hl] at h ⊢
        rw [Prod.mk.injEq] at h ⊢
        omega

/-- C3: Watertightness of caps: each crossing triangle pushes the same two
interpolated cut points to both sides' collections, so the raw cut-point
collections of side A and side B are identical as point sequences, and the
same deterministic deduplication then yields the same point set for both
caps. -/
theorem slice_caps_watertight (pl : Plane) (mesh : List Tri) :
    (sliceTriangles pl mesh).capPointsA = (sliceTriangles pl mesh).capPointsB ∧
      dedupPoints (sliceTriangles pl mesh).capPointsA =
        dedupPoints (sliceTriangles pl mesh).capPointsB := by
  have h := capPointsA_eq_capPointsB pl mesh
  exact ⟨h, by rw [h]⟩

/-- C6 counterexample: after slicing a single triangle lying entirely on side
A, side A holds exactly one surface triangle, fewer than 3, yet it IS
emitted: the source's guard `trianglesA.length >= 3` counts pushed vertex
entries, not triangles, and one triangle already occupies three entries. -/
theorem side_emission_counterexample :
    triCount (sliceTriangles plY [triUp]).trianglesA = 1 ∧ (1 : ℕ) < 3 ∧
      emittedA plY [triUp] = true := by
  refine ⟨?_, by norm_num, ?_⟩ <;>
    norm_num [triCount, emittedA, sliceTriangles, sliceTri, sideOf,
      Plane.distanceToPoint, Vec3.dot, plY, triUp]

/-- C6 (amended): a side's sub-mesh is emitted exactly when it accumulated at
least ONE surface triangle: the source guard `>= 3` counts flat vertex
entries, three per triangle, so it excludes precisely the sides with zero
triangles. -/
theorem side_emitted_iff_one_triangle (pl : Plane) (mesh : List Tri) :
    (emittedA pl mesh = true ↔
      1 ≤ triCount (sliceTriangles pl mesh).trianglesA) ∧
    (emittedB pl mesh = true ↔
      1 ≤ triCount (sliceTriangles pl mesh).trianglesB) := by
  obtain ⟨hA, hB⟩ := three_dvd_lengths pl mesh
  constructor <;>
    · simp only [emittedA, emittedB, triCount, decide_eq_true_eq]
      omega

/-- C7 counterexample: for the stored plane `{normal (0,0,1), constant 1}` and
the origin, the classifier the code calls returns `dot + constant = 1`, not
`dot - constant = -1` as the claim's formula states, and it assigns the origin
to side A while the claim's formula would assign it to side B. -/
theorem plane_classifier_counterexample :
    Plane.distanceToPoint plZ ⟨0, 0, 0⟩ = 1 ∧
      specDistanceToPoint plZ ⟨0, 0, 0⟩ = -1 ∧
      Plane.distanceToPoint plZ ⟨0, 0, 0⟩ ≠ specDistanceToPoint plZ ⟨0, 0, 0⟩ ∧
      sideOf plZ ⟨0, 0, 0⟩ = true := by
  norm_num [Plane.distanceToPoint, specDistanceToPoint, sideOf, Vec3.dot, plZ]

/-- C7 (amended): the classifier returns `dot(normal, p) + constant` (the
three.js `Plane` convention, where `constant` is the negated signed distance
from the origin); a point is assigned to side A exactly when this value is
`>= 0`, a value of exactly `0` lands on side A, and the same sign convention
decides whole-triangle emission. -/
theorem plane_classifier_contract (pl : Plane) (p v0 v1 v2 : Vec3) :
    pl.distanceToPoint p = pl.normal.dot p + pl.constant ∧
    (sideOf pl p = true ↔ 0 ≤ pl.distanceToPoint p) ∧
    (pl.distanceToPoint p = 0 → sideOf pl p = true) ∧
    (sideOf pl v0 = sideOf pl v1 → sideOf pl v1 = sideOf pl v2 →
      sliceTri pl (v0, v1, v2) =
        if sideOf pl v0 = true then ⟨[v0, v1, v2], [], [], []⟩
        else ⟨[], [v0, v1, v2], [], []⟩) := by
  refine ⟨rfl, sideOf_true_iff pl p, ?_, ?_⟩
  · intro h
    rw [sideOf_true_iff]
    exact le_of_eq h.symm
  · intro h01 h12
    simp only [sliceTri]
    rw [if_pos ⟨h01, h12⟩]

/-- Witness for C7 (amended): a point exactly on `plY` lands on side A, and a
triangle with all vertices on one side is emitted whole to that side. -/
theorem plane_classifier_contract_witness :
    plY.distanceToPoint ⟨5, 0, 5⟩ = 0 ∧ sideOf plY ⟨5, 0, 5⟩ = true ∧
      sliceTri plY (⟨0, 1, 0⟩, ⟨1, 1, 0⟩, ⟨0, 1, 1⟩) =
        ⟨[⟨0, 1, 0⟩, ⟨1, 1, 0⟩, ⟨0, 1, 1⟩], [], [], []⟩ := by
  have h := plane_classifier_contract plY ⟨5, 0, 5⟩ ⟨0, 1, 0⟩ ⟨1, 1, 0⟩ ⟨0, 1, 1⟩
  refine ⟨by norm_num [Plane.distanceToPoint, Vec3.dot, plY],
    h.2.2.1 (by norm_num [Plane.distanceToPoint, Vec3.dot, plY]), ?_⟩
  have h4 := h.2.2.2
    (by norm_num [sideOf, Plane.distanceToPoint, Vec3.dot, plY])
    (by norm_num [sideOf, Plane.distanceToPoint, Vec3.dot, plY])
  rw [h4, if_pos (by norm_num [sideOf, Plane.distanceToPoint, Vec3.dot, plY])]

/-- C8: for every crossing triangle, the two interpolated cut points recorded
in both sides' cap collections lie exactly on the cutting plane under exact
arithmetic. -/
theorem cut_points_on_plane (pl : Plane) (t : Tri)
    (hc : crossingTri pl t = true) :
    (sliceTri pl t).capPointsA.length = 2 ∧
    (∀ p ∈ (sliceTri pl t).capPointsA, pl.distanceToPoint p = 0) ∧
    (∀ p ∈ (sliceTri pl t).capPointsB, pl.distanceToPoint p = 0) := by
  refine ⟨sliceTri_cap_length pl t hc, sliceTri_cap_zero pl t, ?_⟩
  rw [← sliceTri_capPointsA_eq]
  exact sliceTri_cap_zero pl t

/-- Witness for C8 at a concrete crossing triangle. -/
theorem cut_points_on_plane_witness :
    crossingTri plY triCross = true ∧
      (⟨0, 0, 0⟩ : Vec3) ∈ (sliceTri plY triCross).capPointsA ∧
      plY.distanceToPoint ⟨0, 0, 0⟩ = 0 := by
  have hc : crossingTri plY triCross = true := by
    norm_num [crossingTri, sideOf, Plane.distanceToPoint, Vec3.dot, plY,
      triCross]
  refine ⟨hc, by norm_num [sliceTri, splitTri, sideOf, Plane.distanceToPoint,
    Vec3.dot, Vec3.lerpVectors, plY, triCross], ?_⟩
  exact (cut_points_on_plane plY triCross hc).2.1 ⟨0, 0, 0⟩
    (by norm_num [sliceTri, splitTri, sideOf, Plane.distanceToPoint,
      Vec3.dot, Vec3.lerpVectors, plY, triCross])

/-- C10: whenever a triangle is classified as crossing, the lone vertex the
source selects lies on the opposite side from both majority vertices, so both
interpolation denominators `loneDist - dist1` and `loneDist - dist2` are
nonzero and `t1`, `t2` are well defined. -/
theorem lone_vertex_denominators (pl : Plane) (t : Tri)
    (hc : crossingTri pl t = true) :
    sideOf pl (triVert t (loneIdx pl t)) ≠
        sideOf pl (triVert t (loneIdx pl t + 1)) ∧
    sideOf pl (triVert t (loneIdx pl t)) ≠
        sideOf pl (triVert t (loneIdx pl t + 2)) ∧
    triDist pl t (loneIdx pl t) - triDist pl t (loneIdx pl t + 1) ≠ 0 ∧
    triDist pl t (loneIdx pl t) - triDist pl t (loneIdx pl t + 2) ≠ 0 := by
  have hs := (crossingTri_eq_true_iff pl t).mp hc
  by_cases h01 : sideOf pl t.1 ≠ sideOf pl t.2.1 ∧ sideOf pl t.1 ≠ sideOf pl t.2.2
  · have hidx : loneIdx pl t = 0 := by
      simp only [loneIdx]
      rw [if_pos h01]
    rw [hidx]
    have e1 : ((0 : Fin 3) + 1) = 1 := rfl
    have e2 : ((0 : Fin 3) + 2) = 2 := rfl
    rw [e1, e2]
    simp only [triVert, triDist]
    exact ⟨h01.1, h01.2, sideOf_ne_dist_sub_ne pl t.1 t.2.1 h01.1,
      sideOf_ne_dist_sub_ne pl t.1 t.2.2 h01.2⟩
  · by_cases h1 : sideOf pl t.2.1 ≠ sideOf pl t.1 ∧ sideOf pl t.2.1 ≠ sideOf pl t.2.2
    · have hidx : loneIdx pl t = 1 := by
        simp only [loneIdx]
        rw [if_neg h01, if_pos h1]
      rw [hidx]
      have e1 : ((1 : Fin 3) + 1) = 2 := rfl
      have e2 : ((1 : Fin 3) + 2) = 0 := rfl
      rw [e1, e2]
      simp only [triVert, triDist]
      exact ⟨h1.2, h1.1, sideOf_ne_dist_sub_ne pl t.2.1 t.2.2 h1.2,
        sideOf_ne_dist_sub_ne pl t.2.1 t.1 h1.1⟩
    · have h2 := lone_of_else _ _ _ hs h01 h1
      have hidx : loneIdx pl t = 2 := by
        simp only [loneIdx]
        rw [if_neg h01, if_neg h1]
      rw [hidx]
      have e1 : ((2 : Fin 3) + 1) = 0 := rfl
      have e2 : ((2 : Fin 3) + 2) = 1 := rfl
      rw [e1, e2]
      simp only [triVert, triDist]
      exact ⟨h2.1, h2.2, sideOf_ne_dist_sub_ne pl t.2.2 t.1 h2.1,
        sideOf_ne_dist_sub_ne pl t.2.2 t.2.1 h2.2⟩

/-- Witness for C10 at a concrete crossing triangle. -/
theorem lone_vertex_denominators_witness :
    crossingTri plY triCross = true ∧
      triDist plY triCross (loneIdx plY triCross) -
          triDist plY triCross (loneIdx plY triCross + 1) ≠ 0 := by
  have hc : crossingTri plY triCross = true := by
    norm_num [crossingTri, sideOf, Plane.distanceToPoint, Vec3.dot, plY,
      triCross]
  exact ⟨hc, (lone_vertex_denominators plY triCross hc).2.2.1⟩

/-- C4: Idempotence of re-slicing: under exact arithmetic every vertex of side
A's emitted output (surface plus cap triangles) has signed distance `>= 0`,
so re-slicing that output with the same plane finds no crossing triangle,
hands side B no triangles and no cap points, and does not emit side B. -/
theorem reslice_idempotent (pl : Plane) (mesh : List Tri) :
    (∀ v ∈ outputA pl mesh, 0 ≤ pl.distanceToPoint v) ∧
    (∀ t ∈ toTriangles (outputA pl mesh), crossingTri pl t = false) ∧
    (sliceTriangles pl (toTriangles (outputA pl mesh))).trianglesB = [] ∧
    (sliceTriangles pl (toTriangles (outputA pl mesh))).capPointsB = [] ∧
    emittedB pl (toTriangles (outputA pl mesh)) = false := by
  have hout : ∀ v ∈ outputA pl mesh, 0 ≤ pl.distanceToPoint v := by
    intro v hv
    simp only [outputA] at hv
    by_cases he : emittedA pl mesh = true
    · rw [if_pos he] at hv
      exact geometryA_nonneg pl mesh v hv
    · rw [if_neg he] at hv
      simp at hv
  have hvert : ∀ v ∈ flatTris (toTriangles (outputA pl mesh)),
      sideOf pl v = true := by
    intro v hv
    simp only [flatTris, List.mem_flatMap] at hv
    obtain ⟨t, ht, hvt⟩ := hv
    obtain ⟨m1, m2, m3⟩ := toTriangles_mem _ t ht
    rw [sideOf_true_iff]
    simp only [List.mem_cons, List.not_mem_nil, or_false] at hvt
    rcases hvt with rfl | rfl | rfl
    · exact hout _ m1
    · exact hout _ m2
    · exact hout _ m3
  have hslice := slice_all_A pl (toTriangles (outputA pl mesh)) hvert
  refine ⟨hout, ?_, by rw [hslice], by rw [hslice], ?_⟩
  · intro t ht
    obtain ⟨m1, m2, m3⟩ := toTriangles_mem _ t ht
    have h1 : sideOf pl t.1 = true := (sideOf_true_iff _ _).mpr (hout _ m1)
    have h2 : sideOf pl t.2.1 = true := (sideOf_true_iff _ _).mpr (hout _ m2)
    have h3 : sideOf pl t.2.2 = true := (sideOf_true_iff _ _).mpr (hout _ m3)
    rw [Bool.eq_false_iff]
    intro hcontra
    exact (crossingTri_eq_true_iff pl t).mp hcontra
      ⟨h1.trans h2.symm, h2.trans h3.symm⟩
  · simp only [emittedB, hslice]
    rfl

/-- Witness for C4 at a two-crossing-triangle mesh whose side A output
carries a cap. -/
theorem reslice_idempotent_witness :
    (⟨0, 2, 0⟩ : Vec3) ∈ outputA plY meshW ∧
      0 ≤ plY.distanceToPoint ⟨0, 2, 0⟩ :=
  ⟨by norm_num [outputA, emittedA, geometryA, addCapToGeometry,
      sliceTriangles, sliceTri, splitTri, sideOf, Plane.distanceToPoint,
      Vec3.dot, Vec3.lerpVectors, Vec3.negate, sortPointsAroundCenter,
      dedupPoints, dedupLoop, Vec3.distanceToSquared, Vec3.cross,
      Vec3.lengthSq, Vec3.sub, capCenter, Vec3.add, Vec3.divideScalar,
      stableSortBy, insertSorted, angleLtB, angleCat, capFan, List.rotate,
      plY, meshW, triCross],
   (reslice_idempotent plY meshW).1 ⟨0, 2, 0⟩
     (by norm_num [outputA, emittedA, geometryA, addCapToGeometry,
       sliceTriangles, sliceTri, splitTri, sideOf, Plane.distanceToPoint,
       Vec3.dot, Vec3.lerpVectors, Vec3.negate, sortPointsAroundCenter,
       dedupPoints, dedupLoop, Vec3.distanceToSquared, Vec3.cross,
       Vec3.lengthSq, Vec3.sub, capCenter, Vec3.add, Vec3.divideScalar,
       stableSortBy, insertSorted, angleLtB, angleCat, capFan, List.rotate,
       plY, meshW, triCross])⟩

/-- C5 counterexample: with the raw cut points `ptsDup`, which contain one
duplicated point, the emitted fan apex is `(1, 1, 0)`, the mean over the raw
list, while the mean of the deduplicated points is `(4/3, 4/3, 0)`: the cap
centroid is computed BEFORE deduplication, not after it as the claim
states. -/
theorem cap_centroid_counterexample :
    (addCapToGeometry [] ptsDup nZ).getD 0 ⟨0, 0, 0⟩ = ⟨1, 1, 0⟩ ∧
      capCenter (dedupPoints ptsDup) = ⟨4 / 3, 4 / 3, 0⟩ ∧
      ((⟨1, 1, 0⟩ : Vec3) ≠ ⟨4 / 3, 4 / 3, 0⟩) := by
  refine ⟨?_, ?_, by norm_num [Vec3.mk.injEq]⟩
  · norm_num [addCapToGeometry, sortPointsAroundCenter, dedupPoints,
      dedupLoop, ptsDup, nZ, Vec3.distanceToSquared, Vec3.cross,
      Vec3.lengthSq, Vec3.sub, Vec3.dot, capCenter, Vec3.add,
      Vec3.divideScalar, stableSortBy, insertSorted, angleLtB, angleCat,
      capFan, List.rotate]
  · norm_num [capCenter, dedupPoints, dedupLoop, ptsDup,
      Vec3.distanceToSquared, Vec3.add, Vec3.divideScalar]

/-- C5 (amended): the fan apex of every emitted cap triangle is the
arithmetic mean of the RAW cut-point list, duplicates included; the
deduplication runs afterwards, inside the angular sort, and does not feed the
centroid. -/
theorem cap_fan_apex_raw_mean (existing capPoints : List Vec3)
    (normal d : Vec3) (j : ℕ) (h4 : 4 ≤ capPoints.length)
    (h3 : 3 ≤ (sortPointsAroundCenter capPoints (capCenter capPoints)
      normal).length)
    (hj : j < (sortPointsAroundCenter capPoints (capCenter capPoints)
      normal).length) :
    ((addCapToGeometry existing capPoints normal).drop existing.length).getD
        (3 * j) d = capCenter capPoints := by
  simp only [addCapToGeometry]
  rw [if_neg (by omega), if_neg (by omega), List.drop_left]
  simp only [capFan]
  exact flatMap_triple_getD _ d _ j
    (by rw [List.length_zip, List.length_rotate]; omega)

/-- Witness for C5 (amended) at the concrete duplicated cut-point list. -/
theorem cap_fan_apex_raw_mean_witness :
    4 ≤ ptsDup.length ∧
      3 ≤ (sortPointsAroundCenter ptsDup (capCenter ptsDup) nZ).length ∧
      ((addCapToGeometry [] ptsDup nZ).drop 0).getD 0 ⟨0, 0, 0⟩ =
        capCenter ptsDup := by
  have h4 : 4 ≤ ptsDup.length := by norm_num [ptsDup]
  have h3 : 3 ≤ (sortPointsAroundCenter ptsDup (capCenter ptsDup) nZ).length := by
    norm_num [sortPointsAroundCenter, dedupPoints, dedupLoop, ptsDup, nZ,
      Vec3.distanceToSquared, Vec3.cross, Vec3.lengthSq, Vec3.sub, Vec3.dot,
      capCenter, Vec3.add, Vec3.divideScalar, stableSortBy, insertSorted,
      angleLtB, angleCat]
  refine ⟨h4, h3, ?_⟩
  have h := cap_fan_apex_raw_mean [] ptsDup nZ ⟨0, 0, 0⟩ 0 h4 h3 (by omega)
  simpa using h

/-- C9 counterexample: the empty mesh vacuously has all its vertices in one
sign class, yet the slicer emits NO side at all, so no side holding exactly
the original triangles is emitted. -/
theorem noncrossing_plane_counterexample :
    (∀ v ∈ flatTris ([] : List Tri), sideOf plY v = true) ∧
      sliceGeometryMeshes plY [] = [] ∧ emittedA plY [] = false ∧
      emittedB plY [] = false := by
  refine ⟨?_, rfl, rfl, rfl⟩
  intro v hv
  simp [flatTris] at hv

/-- C9 (amended): for every NONEMPTY mesh all of whose vertices classify to
one side, the slicer returns exactly one mesh holding exactly the original
triangles, the other side receives no triangles and is absent from the
output, and no cap points (hence no cap triangles) arise on either side. -/
theorem noncrossing_plane_slice (pl : Plane) (mesh : List Tri)
    (hne : mesh ≠ []) :
    ((∀ v ∈ flatTris mesh, sideOf pl v = true) →
      sliceGeometryMeshes pl mesh = [flatTris mesh] ∧
        emittedA pl mesh = true ∧ emittedB pl mesh = false ∧
        (sliceTriangles pl mesh).trianglesB = [] ∧
        (sliceTriangles pl mesh).capPointsA = [] ∧
        (sliceTriangles pl mesh).capPointsB = []) ∧
    ((∀ v ∈ flatTris mesh, sideOf pl v = false) →
      sliceGeometryMeshes pl mesh = [flatTris mesh] ∧
        emittedB pl mesh = true ∧ emittedA pl mesh = false ∧
        (sliceTriangles pl mesh).trianglesA = [] ∧
        (sliceTriangles pl mesh).capPointsA = [] ∧
        (sliceTriangles pl mesh).capPointsB = []) := by
  have hlen : (flatTris mesh).length = 3 * mesh.length := flatTris_length mesh
  have hpos : 0 < mesh.length := List.length_pos.mpr hne
  constructor
  · intro hA
    have hacc := slice_all_A pl mesh hA
    have heA : emittedA pl mesh = true := by
      simp only [emittedA, hacc, decide_eq_true_eq]
      omega
    have heB : emittedB pl mesh = false := by
      simp only [emittedB, hacc]
      rfl
    have hgeo : geometryA pl mesh = flatTris mesh := by
      simp only [geometryA, hacc, List.length_nil]
      rw [if_neg (by omega)]
    refine ⟨?_, heA, heB, by rw [hacc], by rw [hacc], by rw [hacc]⟩
    simp [sliceGeometryMeshes, heA, heB, hgeo]
  · intro hB
    have hacc := slice_all_B pl mesh hB
    have heB : emittedB pl mesh = true := by
      simp only [emittedB, hacc, decide_eq_true_eq]
      omega
    have heA : emittedA pl mesh = false := by
      simp only [emittedA, hacc]
      rfl
    have hgeo : geometryB pl mesh = flatTris mesh := by
      simp only [geometryB, hacc, List.length_nil]
      rw [if_neg (by omega)]
    refine ⟨?_, heB, heA, by rw [hacc], by rw [hacc], by rw [hacc]⟩
    simp [sliceGeometryMeshes, heA, heB, hgeo]

/-- Witness for C9 (amended) at a concrete one-triangle mesh lying entirely
above the plane. -/
theorem noncrossing_plane_witness :
    ([triUp] : List Tri) ≠ [] ∧
      sliceGeometryMeshes plY [triUp] = [flatTris [triUp]] := by
  refine ⟨by simp, ?_⟩
  refine ((noncrossing_plane_slice plY [triUp] (by simp)).1 ?_).1
  intro v hv
  simp only [flatTris, triUp, List.flatMap_cons, List.flatMap_nil,
    List.append_nil, List.mem_cons, List.not_mem_nil, or_false] at hv
  rcases hv with rfl | rfl | rfl <;>
    norm_num [sideOf, Plane.distanceToPoint, Vec3.dot, plY]

end MedVis
